import Mathlib

/-!
# AutoPass: password generator and strength scorer

A shallow embedding of `src/js/generator.js` and the properties of its three
exported functions `generateRandomPassword`, `generateHintPassword` and
`calculateStrength`.

Modelling conventions.

* A JavaScript string is the list of its UTF-16 code units (`JSString`).
* The secure random source is a stream `Nat → Nat` of the values that
  successive calls to `crypto.getRandomValues` store; each is reduced modulo
  `2 ^ 32` because it is read back from a `Uint32Array`.  Functions that draw
  return the rest of the stream next to their result.
* An array element that may be `undefined` (the result of indexing a string)
  is an `Option Nat`; `Array.prototype.join` renders `undefined` as the empty
  string.
* The `length` argument is an integer (`Int`), the options are booleans.
* A JavaScript number that may be `NaN` is a `JSNumber`.
* `shuffleArray` works on a copy (`[...array]`); in the model a list is a
  value, so the argument is unchanged by construction.
-/

namespace AutoPass

/-- A JavaScript string: its sequence of UTF-16 code units. -/
abbrev JSString := List Nat

/-- The code units of an ASCII literal of the source. -/
def lit (s : String) : JSString := s.toList.map Char.toNat

/-- The stream of 32-bit words delivered by `crypto.getRandomValues`. -/
abbrev RandomSource := Nat → Nat

namespace CHAR_SETS

def lowercase : JSString := lit "abcdefghijklmnopqrstuvwxyz"

def uppercase : JSString := lit "ABCDEFGHIJKLMNOPQRSTUVWXYZ"

def numbers : JSString := lit "0123456789"

def symbols : JSString := lit "!@#$%^&*()_+-=[]\x7b\x7d|;:,.<>?"

end CHAR_SETS

/-- `getSecureRandom(max)`: one `Uint32` is drawn and reduced modulo `max`.
Every call site passes a positive `max` (an alphabet length or `i + 1`), so
the `NaN` that JavaScript yields for `max = 0` is never produced. -/
def getSecureRandom (max : Nat) (rng : RandomSource) : Nat × RandomSource :=
  (rng 0 % 4294967296 % max, fun n => rng (n + 1))

/-- The destructuring swap `[arr[i], arr[j]] = [arr[j], arr[i]]`: both old
values are read, then `arr[i]` and `arr[j]` are written in that order. -/
def swapAt {α : Type} (arr : List α) (i j : Nat) : List α :=
  match arr[i]?, arr[j]? with
  | some a, some b => (arr.set i b).set j a
  | _, _ => arr

/-- The loop of `shuffleArray`, for the loop variable running from `i` down
to `1`. -/
def shuffleLoop {α : Type} : Nat → List α → RandomSource → List α × RandomSource
  | 0, arr, rng => (arr, rng)
  | i + 1, arr, rng =>
    let d := getSecureRandom (i + 1 + 1) rng
    shuffleLoop i (swapAt arr (i + 1) d.1) d.2

/-- `shuffleArray(array)`: a copy of the array is shuffled by Fisher-Yates. -/
def shuffleArray {α : Type} (array : List α) (rng : RandomSource) : List α × RandomSource :=
  shuffleLoop (array.length - 1) array rng

/-- The generation options; each defaults to `true`. -/
structure Options where
  uppercase : Bool := true
  numbers : Bool := true
  symbols : Bool := true
deriving DecidableEq, Repr

/-- `s[getSecureRandom(s.length)]`: a random character of `s`, `undefined`
(`none`) if the index were out of range. -/
def pickChar (s : JSString) (rng : RandomSource) : Option Nat × RandomSource :=
  let d := getSecureRandom s.length rng
  (s[d.1]?, d.2)

/-- The loop `for (i = 0; i < n; i++) chars.push(charset[getSecureRandom(charset.length)])`. -/
def fillLoop (charset : JSString) : Nat → List (Option Nat) → RandomSource →
    List (Option Nat) × RandomSource
  | 0, chars, rng => (chars, rng)
  | n + 1, chars, rng =>
    let p := pickChar charset rng
    fillLoop charset n (chars ++ [p.1]) p.2

/-- `Array.prototype.join('')` on an array of one-character strings. -/
def join (chars : List (Option Nat)) : JSString := chars.filterMap id

/-- The combined pool: lowercase plus the alphabets of the enabled classes. -/
def buildCharset (options : Options) : JSString :=
  let charset := CHAR_SETS.lowercase
  let charset := if options.uppercase then charset ++ CHAR_SETS.uppercase else charset
  let charset := if options.numbers then charset ++ CHAR_SETS.numbers else charset
  if options.symbols then charset ++ CHAR_SETS.symbols else charset

/-- One of the blocks `if (enabled) { required.push(cls[getSecureRandom(cls.length)]) }`. -/
def pushRequired (enabled : Bool) (cls : JSString)
    (st : List (Option Nat) × RandomSource) : List (Option Nat) × RandomSource :=
  if enabled then
    let p := pickChar cls st.2
    (st.1 ++ [p.1], p.2)
  else st

/-- The `required` list of `generateRandomPassword` (lines 44-61). -/
def randomRequired (options : Options) (rng : RandomSource) :
    List (Option Nat) × RandomSource :=
  let st := pushRequired options.uppercase CHAR_SETS.uppercase ([], rng)
  let st := pushRequired options.numbers CHAR_SETS.numbers st
  let st := pushRequired options.symbols CHAR_SETS.symbols st
  pushRequired true CHAR_SETS.lowercase st

/-- The array `chars` of `generateRandomPassword` just before the shuffle. -/
def randomChars (length : Int) (options : Options) (rng : RandomSource) :
    List (Option Nat) × RandomSource :=
  let req := randomRequired options rng
  let remaining : Int := length - req.1.length
  fillLoop (buildCharset options) remaining.toNat req.1 req.2

/-- `generateRandomPassword(length, options)`. -/
def generateRandomPassword (length : Int) (options : Options) (rng : RandomSource) :
    JSString × RandomSource :=
  let c := randomChars length options rng
  let s := shuffleArray c.1 c.2
  (join s.1, s.2)

/-- The class `\s` of a JavaScript regular expression, on one code unit:
the white-space characters and line terminators of ECMAScript. -/
def isWhitespace (c : Nat) : Bool :=
  c = 9 || c = 10 || c = 11 || c = 12 || c = 13 || c = 32 || c = 160 || c = 5760 ||
    (8192 ≤ c && c ≤ 8202) || c = 8232 || c = 8233 || c = 8239 || c = 8287 ||
    c = 12288 || c = 65279

/-- `hint.replace(/\s/g, '')`. -/
def stripWhitespace (hint : JSString) : JSString :=
  hint.filter (fun c => !isWhitespace c)

/-- `s.slice(0, end)` for an integer `end`: a negative `end` counts from the
end of the string, and the bound is clamped to `[0, s.length]`. -/
def sliceTo (s : JSString) (e : Int) : JSString :=
  let len : Int := s.length
  let stop : Int := if e < 0 then max (len + e) 0 else min e len
  s.take stop.toNat

/-- The `required` list of `generateHintPassword` (lines 105-116), gated by
`randomLength`. -/
def hintRequired (randomLength : Int) (options : Options) (rng : RandomSource) :
    List (Option Nat) × RandomSource :=
  let st := pushRequired (options.uppercase && decide (randomLength > 0))
    CHAR_SETS.uppercase ([], rng)
  let st := pushRequired (options.numbers && decide (randomLength > 1))
    CHAR_SETS.numbers st
  pushRequired (options.symbols && decide (randomLength > 2)) CHAR_SETS.symbols st

/-- The array `allRandomChars` of `generateHintPassword` (lines 95-125). -/
def hintRandomChars (randomLength : Int) (options : Options) (rng : RandomSource) :
    List (Option Nat) × RandomSource :=
  let charset := buildCharset options
  let req := hintRequired randomLength options rng
  let remainingLength : Int := randomLength - req.1.length
  let randomPart := fillLoop charset remainingLength.toNat [] req.2
  (req.1 ++ randomPart.1, randomPart.2)

/-- `generateHintPassword(hint, length, options)`. -/
def generateHintPassword (hint : JSString) (length : Int) (options : Options)
    (rng : RandomSource) : JSString × RandomSource :=
  let cleanHint := stripWhitespace hint
  if (cleanHint.length : Int) ≥ length then
    (sliceTo cleanHint length, rng)
  else
    let randomLength : Int := length - cleanHint.length
    let c := hintRandomChars randomLength options rng
    let shuffledRandom := shuffleArray c.1 c.2
    (cleanHint ++ join shuffledRandom.1, shuffledRandom.2)

/-- A JavaScript number as far as `calculateStrength` needs it: `NaN` or an
integer. -/
inductive JSNumber where
  | nan : JSNumber
  | num (v : Int) : JSNumber
deriving DecidableEq, Repr

namespace JSNumber

/-- The operator `+` on numbers. -/
def add : JSNumber → JSNumber → JSNumber
  | num a, num b => num (a + b)
  | _, _ => nan

/-- The operator `-` on numbers. -/
def sub : JSNumber → JSNumber → JSNumber
  | num a, num b => num (a - b)
  | _, _ => nan

/-- `Math.min`: `NaN` if either argument is. -/
def min : JSNumber → JSNumber → JSNumber
  | num a, num b => num (Min.min a b)
  | _, _ => nan

/-- `Math.max`: `NaN` if either argument is. -/
def max : JSNumber → JSNumber → JSNumber
  | num a, num b => num (Max.max a b)
  | _, _ => nan

/-- The operator `<`: every comparison with `NaN` is false. -/
def lt : JSNumber → JSNumber → Bool
  | num a, num b => decide (a < b)
  | _, _ => false

end JSNumber

/-- `/[a-z]/.test(password)`. -/
def hasLower (password : JSString) : Bool := password.any (fun c => 97 ≤ c && c ≤ 122)

/-- `/[A-Z]/.test(password)`. -/
def hasUpper (password : JSString) : Bool := password.any (fun c => 65 ≤ c && c ≤ 90)

/-- `/[0-9]/.test(password)`. -/
def hasDigit (password : JSString) : Bool := password.any (fun c => 48 ≤ c && c ≤ 57)

/-- `/[^a-zA-Z0-9]/.test(password)`. -/
def hasOther (password : JSString) : Bool :=
  password.any (fun c => !((97 ≤ c && c ≤ 122) || (65 ≤ c && c ≤ 90) || (48 ≤ c && c ≤ 57)))

/-- A high (leading) surrogate code unit. -/
def isHighSurrogate (c : Nat) : Bool := 55296 ≤ c && c ≤ 56319

/-- A low (trailing) surrogate code unit. -/
def isLowSurrogate (c : Nat) : Bool := 56320 ≤ c && c ≤ 57343

/-- The string iterator that `new Set(password)` consumes: it yields one
string per code point, a high surrogate followed by a low surrogate being one
code point of two code units. -/
def stringIterator : JSString → List JSString
  | [] => []
  | [a] => [[a]]
  | a :: b :: rest =>
    if isHighSurrogate a && isLowSurrogate b then [a, b] :: stringIterator rest
    else [a] :: stringIterator (b :: rest)

/-- `new Set(password).size`. -/
def setSize (password : JSString) : Nat := (stringIterator password).dedup.length

/-- `Math.floor((size / length) * 20)`.  For `length = 0` (then `size = 0`
too) the quotient `0 / 0` is `NaN` and stays so.  Otherwise `size ≤ length`
and the two roundings of the double-precision computation move the exact
value `20 * size / length` by less than `2 ^ (-47)`, never below an integer
it equals, so the floor is the integer quotient for every length below
`2 ^ 47`, far above the longest string an engine allocates. -/
def uniqueRatioScore (size length : Nat) : JSNumber :=
  if length = 0 then JSNumber.nan else JSNumber.num ((20 * size / length : Nat) : Int)

/-- The counter `consecutive`: the indices `i ≥ 1` with
`Math.abs(password.charCodeAt(i) - password.charCodeAt(i - 1)) === 1`. -/
def consecutiveCount : JSString → Nat
  | [] => 0
  | [_] => 0
  | a :: b :: rest =>
    (if Int.natAbs ((b : Int) - (a : Int)) = 1 then 1 else 0) + consecutiveCount (b :: rest)

/-- The object returned by `calculateStrength`. -/
structure StrengthResult where
  score : JSNumber
  label : String
  color : String
deriving DecidableEq, Repr

/-- The variable `score` of `calculateStrength` after the penalty has been
subtracted and before the clamp (lines 138-160). -/
def rawScore (password : JSString) : JSNumber :=
  let score : JSNumber := JSNumber.num 0
  let score := score.add (JSNumber.num (min ((password.length : Int) * 2) 30))
  let score := if hasLower password then score.add (JSNumber.num 10) else score
  let score := if hasUpper password then score.add (JSNumber.num 10) else score
  let score := if hasDigit password then score.add (JSNumber.num 10) else score
  let score := if hasOther password then score.add (JSNumber.num 10) else score
  let score := score.add (uniqueRatioScore (setSize password) password.length)
  let consecutive := consecutiveCount password
  score.sub (JSNumber.num (min ((consecutive : Int) * 2) 10))

/-- `calculateStrength(password)`: the clamp of line 163 and the choice of
label and colour (lines 165-181). -/
def calculateStrength (password : JSString) : StrengthResult :=
  let score := JSNumber.max (JSNumber.num 0) (JSNumber.min (JSNumber.num 100) (rawScore password))
  if score.lt (JSNumber.num 30) then ⟨score, "Weak", "#ef4444"⟩
  else if score.lt (JSNumber.num 60) then ⟨score, "Fair", "#f59e0b"⟩
  else if score.lt (JSNumber.num 80) then ⟨score, "Good", "#10b981"⟩
  else ⟨score, "Strong", "#22c55e"⟩

/-! ## The reference definition of the score, in the words of the specification -/

/-- The number of adjacent pairs whose character codes differ by exactly 1. -/
def referencePairs (p : JSString) : Nat :=
  ((p.zip p.tail).filter (fun ab => decide (ab.1 + 1 = ab.2 ∨ ab.2 + 1 = ab.1))).length

/-- The reference total `L + V + U - P`, with `d` the number of distinct
characters and `n` the number of characters of `p`. -/
def referenceTotal (p : JSString) : Int :=
  let n := p.length
  let d := p.dedup.length
  let L : Int := min (2 * (n : Int)) 30
  let V : Int := (if p.any (fun c => 97 ≤ c && c ≤ 122) then 10 else 0) +
    (if p.any (fun c => 65 ≤ c && c ≤ 90) then 10 else 0) +
    (if p.any (fun c => 48 ≤ c && c ≤ 57) then 10 else 0) +
    (if p.any (fun c => !((97 ≤ c && c ≤ 122) || (65 ≤ c && c ≤ 90) || (48 ≤ c && c ≤ 57)))
      then 10 else 0)
  let U : Int := ((20 * d / n : Nat) : Int)
  let P : Int := min (2 * (referencePairs p : Int)) 10
  L + V + U - P

/-- The variety score: 10 for each of the four regular-expression tests that
succeeds. -/
def varietyScore (p : JSString) : Int :=
  (if hasLower p then 10 else 0) + (if hasUpper p then 10 else 0) +
    (if hasDigit p then 10 else 0) + (if hasOther p then 10 else 0)

/-- The reference score `clamp(L + V + U - P, 0, 100)`. -/
def referenceScore (p : JSString) : Int := max 0 (min 100 (referenceTotal p))

/-- The reference label of a score. -/
def referenceLabel (score : Int) : String :=
  if score < 30 then "Weak" else if score < 60 then "Fair" else if score < 80 then "Good"
  else "Strong"

/-! ## Auxiliary definitions for the statements -/

/-- Every element of the array is a character of `pool`, none is `undefined`. -/
def AllIn (pool : JSString) (chars : List (Option Nat)) : Prop :=
  ∀ c ∈ chars, ∃ u, c = some u ∧ u ∈ pool

/-- The number of guaranteed characters of `generateRandomPassword`: one per
enabled class and one for lowercase. -/
def requiredCount (o : Options) : Nat :=
  (if o.uppercase then 1 else 0) + (if o.numbers then 1 else 0) +
    (if o.symbols then 1 else 0) + 1

/-- The random suffix that `generateHintPassword` appends to the cleaned
hint (the joined `shuffledRandom`). -/
def hintSuffix (r : Int) (o : Options) (rng : RandomSource) : JSString :=
  join (shuffleArray (hintRandomChars r o rng).1 (hintRandomChars r o rng).2).1

/-- The reduced draws `j` that `shuffleArray` uses, for the loop variable
running from `i` down to `1`. -/
def shuffleDraws : Nat → RandomSource → List Nat
  | 0, _ => []
  | i + 1, rng =>
    (getSecureRandom (i + 1 + 1) rng).1 :: shuffleDraws i (getSecureRandom (i + 1 + 1) rng).2

/-- The draws are in range: the draw made for the loop variable `i` is at most
`i`, for `i` running from the first argument down to `1`. -/
def ValidDraws : Nat → List Nat → Prop
  | 0, js => js = []
  | _ + 1, [] => False
  | i + 1, j :: js => j ≤ i + 1 ∧ ValidDraws i js

/-- The random source that yields `j` first and then continues as `rng`. -/
def consDraw (j : Nat) (rng : RandomSource) : RandomSource
  | 0 => j
  | n + 1 => rng n

/-- The last `n` characters of a string. -/
def lastChars (n : Nat) (s : JSString) : JSString := s.drop (s.length - n)

/-- A sample outcome of the random source. -/
def sampleRng : RandomSource := fun n => 7919 * n + 13

/-- A second outcome of the random source, with the same residues modulo
`2 ^ 32` as `sampleRng`. -/
def sampleRng2 : RandomSource := fun n => sampleRng n + 4294967296

/-- All three optional classes enabled (the defaults). -/
def allOptions : Options := ⟨true, true, true⟩

/-- Only lowercase: the three optional classes disabled. -/
def noOptions : Options := ⟨false, false, false⟩

/-! ## The swap and the shuffle -/

theorem swapAt_length {α : Type} (arr : List α) (i j : Nat) :
    (swapAt arr i j).length = arr.length := by
  unfold swapAt
  split <;> simp

theorem swapAt_perm {α : Type} (arr : List α) (i j : Nat) : (swapAt arr i j).Perm arr := by
  classical
  unfold swapAt
  split
  · rename_i a b hi hj
    obtain ⟨hi1, hi2⟩ := List.getElem?_eq_some.1 hi
    obtain ⟨hj1, hj2⟩ := List.getElem?_eq_some.1 hj
    rw [List.perm_iff_count]
    intro x
    have hj3 : j < (arr.set i b).length := by simpa using hj1
    rw [List.count_set _ _ _ _ hj3, List.count_set _ _ _ _ hi1, List.getElem_set, hi2, hj2]
    have ha : a ∈ arr := hi2 ▸ List.getElem_mem hi1
    have hb : b ∈ arr := hj2 ▸ List.getElem_mem hj1
    have hca : 0 < arr.count a := List.count_pos_iff.2 ha
    have hcb : 0 < arr.count b := List.count_pos_iff.2 hb
    by_cases hij : i = j
    · subst hij
      have hab : a = b := by rw [← hi2, ← hj2]
      subst hab
      by_cases hax : a = x
      · subst hax; simp; omega
      · simp [hax]
    · by_cases hax : a = x <;> by_cases hbx : b = x <;> simp [hij, hax, hbx] <;> 
        first | omega | (subst hax; omega)
  · exact List.Perm.refl _

theorem swapAt_drop {α : Type} (arr : List α) (i j n : Nat) (hi : i < n) (hj : j < n) :
    (swapAt arr i j).drop n = arr.drop n := by
  unfold swapAt
  split
  · rw [List.drop_set_of_lt _ _ hj, List.drop_set_of_lt _ _ hi]
  · rfl

theorem swapAt_getElem? {α : Type} (arr : List α) (i j : Nat) (hi : i < arr.length)
    (hj : j < arr.length) : (swapAt arr i j)[i]? = arr[j]? := by
  unfold swapAt
  rw [List.getElem?_eq_getElem hi, List.getElem?_eq_getElem hj]
  simp only
  by_cases hij : i = j
  · subst hij
    simp [hi]
  · rw [List.getElem?_set_ne (Ne.symm hij)]
    simp [hi]

theorem getSecureRandom_lt (max : Nat) (rng : RandomSource) (h : 0 < max) :
    (getSecureRandom max rng).1 < max :=
  Nat.mod_lt _ h

theorem shuffleLoop_perm {α : Type} (i : Nat) (arr : List α) (rng : RandomSource) :
    (shuffleLoop i arr rng).1.Perm arr := by
  induction i generalizing arr rng with
  | zero => exact List.Perm.refl _
  | succ i ih =>
    simp only [shuffleLoop]
    exact (ih _ _).trans (swapAt_perm _ _ _)

theorem shuffleLoop_drop {α : Type} (i : Nat) (arr : List α) (rng : RandomSource) :
    (shuffleLoop i arr rng).1.drop (i + 1) = arr.drop (i + 1) := by
  induction i generalizing arr rng with
  | zero => rfl
  | succ i ih =>
    simp only [shuffleLoop]
    have hj := getSecureRandom_lt (i + 1 + 1) rng (by omega)
    have h1 := ih (swapAt arr (i + 1) (getSecureRandom (i + 1 + 1) rng).1)
      (getSecureRandom (i + 1 + 1) rng).2
    have h2 := congrArg (List.drop 1) h1
    simp only [List.drop_drop] at h2
    rw [h2, swapAt_drop _ _ _ _ (by omega) hj]

theorem shuffleArray_perm {α : Type} (array : List α) (rng : RandomSource) :
    (shuffleArray array rng).1.Perm array :=
  shuffleLoop_perm _ _ _

/-! ## The shuffle as a bijection from draw sequences to rearrangements -/

theorem shuffleDraws_valid (i : Nat) (rng : RandomSource) : ValidDraws i (shuffleDraws i rng) := by
  induction i generalizing rng with
  | zero => rfl
  | succ i ih =>
    have := getSecureRandom_lt (i + 1 + 1) rng (by omega)
    exact ⟨by omega, ih _⟩

theorem getSecureRandom_consDraw (max j : Nat) (rng : RandomSource) (hj : j < max)
    (hm : max ≤ 4294967296) : getSecureRandom max (consDraw j rng) = (j, rng) := by
  unfold getSecureRandom
  have h1 : consDraw j rng 0 = j := rfl
  rw [h1, Nat.mod_eq_of_lt (show j < 4294967296 by omega), Nat.mod_eq_of_lt hj]
  rfl

theorem shuffleDraws_surjective (i : Nat) (hi : i < 4294967296) (js : List Nat)
    (h : ValidDraws i js) : ∃ rng, shuffleDraws i rng = js := by
  induction i generalizing js with
  | zero =>
    have : js = [] := h
    exact ⟨fun _ => 0, by rw [this]; rfl⟩
  | succ i ih =>
    cases js with
    | nil => exact absurd h (by simp [ValidDraws])
    | cons j js =>
      obtain ⟨hj, hv⟩ : j ≤ i + 1 ∧ ValidDraws i js := h
      obtain ⟨rng, hr⟩ := ih (by omega) js hv
      refine ⟨consDraw j rng, ?_⟩
      simp only [shuffleDraws]
      rw [getSecureRandom_consDraw _ _ _ (by omega) (by omega), hr]

theorem shuffleLoop_congr {α : Type} (i : Nat) (arr : List α) (rng1 rng2 : RandomSource)
    (h : shuffleDraws i rng1 = shuffleDraws i rng2) :
    (shuffleLoop i arr rng1).1 = (shuffleLoop i arr rng2).1 := by
  induction i generalizing arr rng1 rng2 with
  | zero => rfl
  | succ i ih =>
    simp only [shuffleDraws, List.cons.injEq] at h
    simp only [shuffleLoop]
    rw [h.1]
    exact ih _ _ _ h.2

theorem shuffleLoop_getElem? {α : Type} (i : Nat) (arr : List α) (rng : RandomSource)
    (hi : i + 1 < arr.length) :
    (shuffleLoop (i + 1) arr rng).1[i + 1]? = arr[(getSecureRandom (i + 1 + 1) rng).1]? := by
  have hj := getSecureRandom_lt (i + 1 + 1) rng (by omega)
  have h1 := shuffleLoop_drop i (swapAt arr (i + 1) (getSecureRandom (i + 1 + 1) rng).1)
    (getSecureRandom (i + 1 + 1) rng).2
  have h2 := congrArg (fun l => l[0]?) h1
  simp only [List.getElem?_drop, Nat.add_zero] at h2
  simp only [shuffleLoop]
  rw [h2, swapAt_getElem? _ _ _ hi (by omega)]

theorem shuffleLoop_injective {α : Type} (i : Nat) (arr : List α) (rng1 rng2 : RandomSource)
    (hnd : arr.Nodup) (hi : i ≤ arr.length - 1)
    (h : (shuffleLoop i arr rng1).1 = (shuffleLoop i arr rng2).1) :
    shuffleDraws i rng1 = shuffleDraws i rng2 := by
  induction i generalizing arr rng1 rng2 with
  | zero => rfl
  | succ i ih =>
    have hlt : i + 1 < arr.length := by omega
    have hj1 := getSecureRandom_lt (i + 1 + 1) rng1 (by omega)
    have hg := congrArg (fun l => l[i + 1]?) h
    simp only [shuffleLoop_getElem? i arr _ hlt] at hg
    have hj : (getSecureRandom (i + 1 + 1) rng1).1 = (getSecureRandom (i + 1 + 1) rng2).1 :=
      List.getElem?_inj (by omega) hnd hg
    simp only [shuffleLoop] at h
    rw [← hj] at h
    have ht := ih (swapAt arr (i + 1) (getSecureRandom (i + 1 + 1) rng1).1) _ _
      ((swapAt_perm _ _ _).nodup_iff.2 hnd) (by rw [swapAt_length]; omega) h
    simp only [shuffleDraws]
    rw [hj, ht]

theorem perm_take_of_drop_eq {α : Type} (a b : List α) (n : Nat) (hp : a.Perm b)
    (hd : a.drop n = b.drop n) : (a.take n).Perm (b.take n) := by
  have h1 : (a.take n ++ a.drop n).Perm (b.take n ++ a.drop n) := by
    rw [List.take_append_drop, hd, List.take_append_drop]
    exact hp
  exact (List.perm_append_right_iff _).1 h1

theorem shuffleLoop_surjective {α : Type} (i : Nat) (arr σ : List α) (hi : i ≤ arr.length - 1)
    (hb : i < 4294967296) (hp : σ.Perm arr) (hd : arr.drop (i + 1) = σ.drop (i + 1)) :
    ∃ rng, (shuffleLoop i arr rng).1 = σ := by
  induction i generalizing arr with
  | zero =>
    refine ⟨fun _ => 0, ?_⟩
    have ht := perm_take_of_drop_eq σ arr 1 hp hd.symm
    have : arr.take 1 = σ.take 1 := by
      cases arr with
      | nil => simpa using ht
      | cons x xs =>
        cases σ with
        | nil => simp at ht
        | cons y ys => simpa using ht.symm
    show arr = σ
    rw [← List.take_append_drop 1 arr, ← List.take_append_drop 1 σ, this, hd]
  | succ i ih =>
    have hlen : σ.length = arr.length := hp.length_eq
    have hlt : i + 1 < arr.length := by omega
    have hlt2 : i + 1 < σ.length := by omega
    have hmem : σ[i + 1] ∈ σ.take (i + 1 + 1) := by
      rw [List.mem_take_iff_getElem]
      exact ⟨i + 1, by omega, rfl⟩
    have ht := perm_take_of_drop_eq σ arr (i + 1 + 1) hp hd.symm
    obtain ⟨j, hj, hjx⟩ := List.mem_take_iff_getElem.1 (ht.subset hmem)
    have hj1 : j < i + 1 + 1 := by omega
    have hj2 : j < arr.length := by omega
    have hdrop : (swapAt arr (i + 1) j).drop (i + 1) = σ.drop (i + 1) := by
      apply List.ext_getElem?
      intro k
      rw [List.getElem?_drop, List.getElem?_drop]
      cases k with
      | zero =>
        rw [Nat.add_zero, swapAt_getElem? _ _ _ hlt hj2, List.getElem?_eq_getElem hj2, hjx,
          List.getElem?_eq_getElem hlt2]
      | succ k =>
        have e1 := congrArg (fun l => l[k]?) (swapAt_drop arr (i + 1) j (i + 1 + 1) (by omega) hj1)
        have e2 := congrArg (fun l => l[k]?) hd
        simp only [List.getElem?_drop] at e1 e2
        rw [show i + 1 + (k + 1) = i + 1 + 1 + k by omega, e1, e2]
    obtain ⟨rng, hr⟩ := ih (swapAt arr (i + 1) j) (by rw [swapAt_length]; omega) (by omega)
      (hp.trans (swapAt_perm _ _ _).symm) hdrop
    refine ⟨consDraw j rng, ?_⟩
    simp only [shuffleLoop]
    rw [getSecureRandom_consDraw _ _ _ hj1 (by omega)]
    exact hr

/-- C9: `shuffleArray` is a Fisher-Yates shuffle.  The result is a
rearrangement of the input, of the same length, and the draws are in range
(`j ≤ i` for each loop index `i`).  The result depends on the random source
only through the sequence of draws; on an array of distinct elements (such as
the positions `0, ..., n - 1`) different draw sequences give different
results; and, within the length an array can have, every in-range draw
sequence occurs and every rearrangement of the input is produced.  So draw
sequences and rearrangements correspond one to one. -/
theorem shuffleArray_fisher_yates {α : Type} (arr : List α) :
    (∀ rng, (shuffleArray arr rng).1.Perm arr ∧ (shuffleArray arr rng).1.length = arr.length ∧
      ValidDraws (arr.length - 1) (shuffleDraws (arr.length - 1) rng)) ∧
    (∀ rng1 rng2, shuffleDraws (arr.length - 1) rng1 = shuffleDraws (arr.length - 1) rng2 →
      (shuffleArray arr rng1).1 = (shuffleArray arr rng2).1) ∧
    (arr.Nodup → ∀ rng1 rng2, (shuffleArray arr rng1).1 = (shuffleArray arr rng2).1 →
      shuffleDraws (arr.length - 1) rng1 = shuffleDraws (arr.length - 1) rng2) ∧
    (arr.length ≤ 4294967296 →
      (∀ js, ValidDraws (arr.length - 1) js → ∃ rng, shuffleDraws (arr.length - 1) rng = js) ∧
      (∀ σ : List α, σ.Perm arr → ∃ rng, (shuffleArray arr rng).1 = σ)) := by
  refine ⟨fun rng => ⟨shuffleArray_perm arr rng, (shuffleArray_perm arr rng).length_eq,
    shuffleDraws_valid _ rng⟩, fun rng1 rng2 h => shuffleLoop_congr _ arr rng1 rng2 h,
    fun hnd rng1 rng2 h => shuffleLoop_injective _ arr rng1 rng2 hnd (le_refl _) h, ?_⟩
  intro hlen
  refine ⟨fun js hjs => shuffleDraws_surjective _ (by omega) js hjs, fun σ hσ => ?_⟩
  refine shuffleLoop_surjective _ arr σ (le_refl _) (by omega) hσ ?_
  have hl := hσ.length_eq
  rw [List.drop_eq_nil_of_le (by omega), List.drop_eq_nil_of_le (by omega)]

theorem shuffleArray_fisher_yates_witness :
    ((List.range 3).Nodup ∧
      (shuffleArray (List.range 3) sampleRng).1 = (shuffleArray (List.range 3) sampleRng2).1 ∧
      shuffleDraws 2 sampleRng = shuffleDraws 2 sampleRng2) ∧
    (shuffleDraws 2 sampleRng = shuffleDraws 2 sampleRng2 ∧
      (shuffleArray (List.range 3) sampleRng).1 = (shuffleArray (List.range 3) sampleRng2).1) ∧
    ((List.range 3).length ≤ 4294967296 ∧ ValidDraws 2 [1, 0] ∧
      (∃ rng, shuffleDraws 2 rng = [1, 0]) ∧ [2, 0, 1].Perm (List.range 3) ∧
      ∃ rng, (shuffleArray (List.range 3) rng).1 = [2, 0, 1]) :=
  ⟨⟨by decide, by decide,
    (shuffleArray_fisher_yates (List.range 3)).2.2.1 (by decide) sampleRng sampleRng2
      (by decide)⟩,
   ⟨by decide, (shuffleArray_fisher_yates (List.range 3)).2.1 sampleRng sampleRng2 (by decide)⟩,
   ⟨by decide, ⟨by decide, by decide, rfl⟩,
    ((shuffleArray_fisher_yates (List.range 3)).2.2.2 (by decide)).1 [1, 0]
      ⟨by decide, by decide, rfl⟩,
    by decide,
    ((shuffleArray_fisher_yates (List.range 3)).2.2.2 (by decide)).2 [2, 0, 1] (by decide)⟩⟩

/-! ## Drawing characters -/

theorem AllIn.append {pool : JSString} {a b : List (Option Nat)} (ha : AllIn pool a)
    (hb : AllIn pool b) : AllIn pool (a ++ b) := by
  intro c hc
  rcases List.mem_append.1 hc with h | h
  · exact ha c h
  · exact hb c h

theorem AllIn.mono {pool pool1 : JSString} {a : List (Option Nat)} (ha : AllIn pool a)
    (h : pool ⊆ pool1) : AllIn pool1 a := by
  intro c hc
  obtain ⟨u, hu, hm⟩ := ha c hc
  exact ⟨u, hu, h hm⟩

theorem AllIn.perm {pool : JSString} {a b : List (Option Nat)} (ha : AllIn pool a)
    (h : b.Perm a) : AllIn pool b :=
  fun c hc => ha c (h.subset hc)

theorem mem_join {chars : List (Option Nat)} {u : Nat} : u ∈ join chars ↔ some u ∈ chars := by
  simp [join]

theorem join_length_of_allIn {pool : JSString} {chars : List (Option Nat)}
    (h : AllIn pool chars) : (join chars).length = chars.length := by
  induction chars with
  | nil => rfl
  | cons c cs ih =>
    obtain ⟨u, hu, -⟩ := h c (List.mem_cons_self _ _)
    subst hu
    have := ih (fun d hd => h d (List.mem_cons_of_mem _ hd))
    simpa [join] using this

theorem join_subset_of_allIn {pool : JSString} {chars : List (Option Nat)}
    (h : AllIn pool chars) : join chars ⊆ pool := by
  intro u hu
  obtain ⟨v, hv, hm⟩ := h _ (mem_join.1 hu)
  cases hv
  exact hm

theorem pickChar_spec (s : JSString) (rng : RandomSource) (h : s ≠ []) :
    ∃ u, (pickChar s rng).1 = some u ∧ u ∈ s := by
  have hlt := getSecureRandom_lt s.length rng (List.length_pos.2 h)
  refine ⟨s[(getSecureRandom s.length rng).1], ?_, List.getElem_mem _⟩
  simp only [pickChar]
  exact List.getElem?_eq_getElem hlt

theorem fillLoop_spec (charset : JSString) (h : charset ≠ []) (n : Nat)
    (chars : List (Option Nat)) (rng : RandomSource) :
    ∃ extra, (fillLoop charset n chars rng).1 = chars ++ extra ∧ extra.length = n ∧
      AllIn charset extra := by
  induction n generalizing chars rng with
  | zero => exact ⟨[], by simp [fillLoop], rfl, fun c hc => by cases hc⟩
  | succ n ih =>
    obtain ⟨u, hu, hm⟩ := pickChar_spec charset rng h
    obtain ⟨extra, he, hl, ha⟩ := ih (chars ++ [(pickChar charset rng).1]) (pickChar charset rng).2
    refine ⟨(pickChar charset rng).1 :: extra, ?_, by simp [hl], ?_⟩
    · simp only [fillLoop]
      rw [he]
      simp
    · intro c hc
      rcases List.mem_cons.1 hc with rfl | hc
      · exact ⟨u, hu, hm⟩
      · exact ha c hc

theorem pushRequired_spec (enabled : Bool) (cls : JSString) (h : cls ≠ [])
    (st : List (Option Nat) × RandomSource) :
    ∃ u, u ∈ cls ∧ (pushRequired enabled cls st).1 = st.1 ++ (if enabled then [some u] else []) := by
  obtain ⟨u, hu, hm⟩ := pickChar_spec cls st.2 h
  refine ⟨u, hm, ?_⟩
  cases enabled
  · simp [pushRequired]
  · simp [pushRequired, hu]

theorem lowercase_ne_nil : CHAR_SETS.lowercase ≠ [] := by decide

theorem uppercase_ne_nil : CHAR_SETS.uppercase ≠ [] := by decide

theorem numbers_ne_nil : CHAR_SETS.numbers ≠ [] := by decide

theorem symbols_ne_nil : CHAR_SETS.symbols ≠ [] := by decide

theorem lowercase_subset_charset (o : Options) : CHAR_SETS.lowercase ⊆ buildCharset o := by
  intro c hc
  unfold buildCharset
  simp only
  split_ifs <;> simp [hc]

theorem uppercase_subset_charset (o : Options) (h : o.uppercase = true) :
    CHAR_SETS.uppercase ⊆ buildCharset o := by
  intro c hc
  unfold buildCharset
  simp only [h]
  split_ifs <;> simp [hc]

theorem numbers_subset_charset (o : Options) (h : o.numbers = true) :
    CHAR_SETS.numbers ⊆ buildCharset o := by
  intro c hc
  unfold buildCharset
  simp only [h]
  split_ifs <;> simp [hc]

theorem symbols_subset_charset (o : Options) (h : o.symbols = true) :
    CHAR_SETS.symbols ⊆ buildCharset o := by
  intro c hc
  unfold buildCharset
  simp only [h]
  split_ifs <;> simp [hc]

theorem buildCharset_ne_nil (o : Options) : buildCharset o ≠ [] := by
  intro h
  have := lowercase_subset_charset o (show 97 ∈ CHAR_SETS.lowercase by decide)
  rw [h] at this
  cases this

theorem randomRequired_spec (o : Options) (rng : RandomSource) :
    ∃ u n s l, u ∈ CHAR_SETS.uppercase ∧ n ∈ CHAR_SETS.numbers ∧ s ∈ CHAR_SETS.symbols ∧
      l ∈ CHAR_SETS.lowercase ∧
      (randomRequired o rng).1 = (if o.uppercase then [some u] else []) ++
        (if o.numbers then [some n] else []) ++ (if o.symbols then [some s] else []) ++
        [some l] := by
  unfold randomRequired
  simp only
  obtain ⟨u, hu, h1⟩ := pushRequired_spec o.uppercase _ uppercase_ne_nil ([], rng)
  obtain ⟨n, hn, h2⟩ := pushRequired_spec o.numbers _ numbers_ne_nil
    (pushRequired o.uppercase CHAR_SETS.uppercase ([], rng))
  obtain ⟨s, hs, h3⟩ := pushRequired_spec o.symbols _ symbols_ne_nil
    (pushRequired o.numbers CHAR_SETS.numbers
      (pushRequired o.uppercase CHAR_SETS.uppercase ([], rng)))
  obtain ⟨l, hl, h4⟩ := pushRequired_spec true _ lowercase_ne_nil
    (pushRequired o.symbols CHAR_SETS.symbols (pushRequired o.numbers CHAR_SETS.numbers
      (pushRequired o.uppercase CHAR_SETS.uppercase ([], rng))))
  refine ⟨u, n, s, l, hu, hn, hs, hl, ?_⟩
  rw [h4, h3, h2, h1]
  simp

theorem randomRequired_length (o : Options) (rng : RandomSource) :
    (randomRequired o rng).1.length = requiredCount o := by
  obtain ⟨u, n, s, l, -, -, -, -, h⟩ := randomRequired_spec o rng
  rw [h]
  unfold requiredCount
  split_ifs <;> simp

theorem randomRequired_allIn (o : Options) (rng : RandomSource) :
    AllIn (buildCharset o) (randomRequired o rng).1 := by
  obtain ⟨u, n, s, l, hu, hn, hs, hl, h⟩ := randomRequired_spec o rng
  rw [h]
  intro c hc
  simp only [List.mem_append, List.mem_singleton] at hc
  rcases hc with ((hc | hc) | hc) | hc
  · split_ifs at hc with ho
    · simp only [List.mem_singleton] at hc
      exact ⟨u, hc, uppercase_subset_charset o ho hu⟩
    · cases hc
  · split_ifs at hc with ho
    · simp only [List.mem_singleton] at hc
      exact ⟨n, hc, numbers_subset_charset o ho hn⟩
    · cases hc
  · split_ifs at hc with ho
    · simp only [List.mem_singleton] at hc
      exact ⟨s, hc, symbols_subset_charset o ho hs⟩
    · cases hc
  · exact ⟨l, hc, lowercase_subset_charset o hl⟩

theorem randomChars_spec (length : Int) (o : Options) (rng : RandomSource) :
    ∃ extra, (randomChars length o rng).1 = (randomRequired o rng).1 ++ extra ∧
      extra.length = (length - (requiredCount o : Int)).toNat ∧
      AllIn (buildCharset o) extra := by
  unfold randomChars
  simp only
  rw [randomRequired_length]
  exact fillLoop_spec _ (buildCharset_ne_nil o) _ _ _

theorem randomChars_allIn (length : Int) (o : Options) (rng : RandomSource) :
    AllIn (buildCharset o) (randomChars length o rng).1 := by
  obtain ⟨extra, h, -, ha⟩ := randomChars_spec length o rng
  rw [h]
  exact (randomRequired_allIn o rng).append ha

theorem generateRandomPassword_mem (length : Int) (o : Options) (rng : RandomSource) (u : Nat) :
    u ∈ (generateRandomPassword length o rng).1 ↔ some u ∈ (randomChars length o rng).1 := by
  unfold generateRandomPassword
  simp only
  rw [mem_join]
  exact (shuffleArray_perm _ _).mem_iff

theorem randomPassword_length_formula (length : Int) (o : Options) (rng : RandomSource) :
    (generateRandomPassword length o rng).1.length =
      requiredCount o + (length - (requiredCount o : Int)).toNat := by
  unfold generateRandomPassword
  simp only
  have hp := shuffleArray_perm (randomChars length o rng).1 (randomChars length o rng).2
  rw [join_length_of_allIn ((randomChars_allIn length o rng).perm hp), hp.length_eq]
  obtain ⟨extra, h, hl, -⟩ := randomChars_spec length o rng
  rw [h, List.length_append, randomRequired_length, hl]

theorem hintRequired_spec (r : Int) (o : Options) (rng : RandomSource) :
    ∃ u n s, u ∈ CHAR_SETS.uppercase ∧ n ∈ CHAR_SETS.numbers ∧ s ∈ CHAR_SETS.symbols ∧
      (hintRequired r o rng).1 =
        (if (o.uppercase && decide (r > 0)) = true then [some u] else []) ++
        (if (o.numbers && decide (r > 1)) = true then [some n] else []) ++
        (if (o.symbols && decide (r > 2)) = true then [some s] else []) := by
  unfold hintRequired
  simp only
  obtain ⟨u, hu, h1⟩ := pushRequired_spec (o.uppercase && decide (r > 0)) _ uppercase_ne_nil
    ([], rng)
  obtain ⟨n, hn, h2⟩ := pushRequired_spec (o.numbers && decide (r > 1)) _ numbers_ne_nil
    (pushRequired (o.uppercase && decide (r > 0)) CHAR_SETS.uppercase ([], rng))
  obtain ⟨s, hs, h3⟩ := pushRequired_spec (o.symbols && decide (r > 2)) _ symbols_ne_nil
    (pushRequired (o.numbers && decide (r > 1)) CHAR_SETS.numbers
      (pushRequired (o.uppercase && decide (r > 0)) CHAR_SETS.uppercase ([], rng)))
  refine ⟨u, n, s, hu, hn, hs, ?_⟩
  rw [h3, h2, h1]
  simp

theorem hintRequired_length_le (r : Int) (o : Options) (rng : RandomSource) (hr : 0 < r) :
    ((hintRequired r o rng).1.length : Int) ≤ r := by
  obtain ⟨u, n, s, -, -, -, h⟩ := hintRequired_spec r o rng
  rw [h]
  simp only [Bool.and_eq_true, decide_eq_true_eq]
  split_ifs <;> simp <;> omega

theorem hintRequired_allIn (r : Int) (o : Options) (rng : RandomSource) :
    AllIn (buildCharset o) (hintRequired r o rng).1 := by
  obtain ⟨u, n, s, hu, hn, hs, h⟩ := hintRequired_spec r o rng
  rw [h]
  intro c hc
  simp only [List.mem_append, Bool.and_eq_true, decide_eq_true_eq] at hc
  rcases hc with (hc | hc) | hc
  · split_ifs at hc with ho
    · simp only [List.mem_singleton] at hc
      exact ⟨u, hc, uppercase_subset_charset o ho.1 hu⟩
    · cases hc
  · split_ifs at hc with ho
    · simp only [List.mem_singleton] at hc
      exact ⟨n, hc, numbers_subset_charset o ho.1 hn⟩
    · cases hc
  · split_ifs at hc with ho
    · simp only [List.mem_singleton] at hc
      exact ⟨s, hc, symbols_subset_charset o ho.1 hs⟩
    · cases hc

theorem hintRandomChars_spec (r : Int) (o : Options) (rng : RandomSource) :
    ∃ extra, (hintRandomChars r o rng).1 = (hintRequired r o rng).1 ++ extra ∧
      extra.length = (r - ((hintRequired r o rng).1.length : Int)).toNat ∧
      AllIn (buildCharset o) extra := by
  unfold hintRandomChars
  simp only
  obtain ⟨extra, h, hl, ha⟩ := fillLoop_spec (buildCharset o) (buildCharset_ne_nil o)
    (r - ((hintRequired r o rng).1.length : Int)).toNat [] (hintRequired r o rng).2
  exact ⟨extra, by rw [h]; simp, hl, ha⟩

theorem hintRandomChars_allIn (r : Int) (o : Options) (rng : RandomSource) :
    AllIn (buildCharset o) (hintRandomChars r o rng).1 := by
  obtain ⟨extra, h, -, ha⟩ := hintRandomChars_spec r o rng
  rw [h]
  exact (hintRequired_allIn r o rng).append ha

theorem hintRandomChars_length (r : Int) (o : Options) (rng : RandomSource) (hr : 0 < r) :
    ((hintRandomChars r o rng).1.length : Int) = r := by
  obtain ⟨extra, h, hl, -⟩ := hintRandomChars_spec r o rng
  have := hintRequired_length_le r o rng hr
  rw [h, List.length_append, hl]
  omega

theorem generateHintPassword_of_lt (hint : JSString) (length : Int) (o : Options)
    (rng : RandomSource) (h : ((stripWhitespace hint).length : Int) < length) :
    (generateHintPassword hint length o rng).1 =
      stripWhitespace hint ++ hintSuffix (length - (stripWhitespace hint).length) o rng := by
  unfold generateHintPassword hintSuffix
  simp only
  rw [if_neg (by omega)]

theorem generateHintPassword_of_ge (hint : JSString) (length : Int) (o : Options)
    (rng : RandomSource) (h : length ≤ ((stripWhitespace hint).length : Int)) :
    generateHintPassword hint length o rng = (sliceTo (stripWhitespace hint) length, rng) := by
  unfold generateHintPassword
  simp only
  rw [if_pos (by omega)]

theorem sliceTo_of_nonneg (s : JSString) (e : Int) (h : 0 ≤ e) : sliceTo s e = s.take e.toNat := by
  unfold sliceTo
  simp only
  rw [if_neg (by omega)]
  by_cases hle : e ≤ (s.length : Int)
  · rw [min_eq_left hle]
  · rw [min_eq_right (by omega), Int.toNat_ofNat, List.take_length]
    rw [List.take_of_length_le]
    omega

theorem hintSuffix_mem (r : Int) (o : Options) (rng : RandomSource) (u : Nat) :
    u ∈ hintSuffix r o rng ↔ some u ∈ (hintRandomChars r o rng).1 := by
  unfold hintSuffix
  rw [mem_join]
  exact (shuffleArray_perm _ _).mem_iff

theorem hintSuffix_subset (r : Int) (o : Options) (rng : RandomSource) :
    hintSuffix r o rng ⊆ buildCharset o :=
  join_subset_of_allIn ((hintRandomChars_allIn r o rng).perm (shuffleArray_perm _ _))

theorem hintSuffix_length (r : Int) (o : Options) (rng : RandomSource) (hr : 0 < r) :
    ((hintSuffix r o rng).length : Int) = r := by
  unfold hintSuffix
  have hp := shuffleArray_perm (hintRandomChars r o rng).1 (hintRandomChars r o rng).2
  rw [join_length_of_allIn ((hintRandomChars_allIn r o rng).perm hp), hp.length_eq]
  exact hintRandomChars_length r o rng hr

theorem charset_mem_iff (o : Options) (c : Nat) :
    c ∈ buildCharset o ↔ c ∈ CHAR_SETS.lowercase ∨ (o.uppercase = true ∧ c ∈ CHAR_SETS.uppercase) ∨
      (o.numbers = true ∧ c ∈ CHAR_SETS.numbers) ∨ (o.symbols = true ∧ c ∈ CHAR_SETS.symbols) := by
  unfold buildCharset
  simp only
  split_ifs with h1 h2 h3 h3 h2 h3 h3 <;> simp [h1, h2, h3, or_assoc]

theorem lastChars_append (a b : JSString) : lastChars b.length (a ++ b) = b := by
  unfold lastChars
  simp

/-! ## The generator: coverage, length, pool -/

/-- C1: for every length, options and outcome of the random source, the
password returned by `generateRandomPassword` contains a lowercase character,
and a character of each of the classes uppercase, numbers, symbols that is
enabled. -/
theorem generateRandomPassword_covers (length : Int) (o : Options) (rng : RandomSource) :
    (∃ c ∈ (generateRandomPassword length o rng).1, c ∈ CHAR_SETS.lowercase) ∧
    (o.uppercase = true →
      ∃ c ∈ (generateRandomPassword length o rng).1, c ∈ CHAR_SETS.uppercase) ∧
    (o.numbers = true →
      ∃ c ∈ (generateRandomPassword length o rng).1, c ∈ CHAR_SETS.numbers) ∧
    (o.symbols = true →
      ∃ c ∈ (generateRandomPassword length o rng).1, c ∈ CHAR_SETS.symbols) := by
  obtain ⟨u, n, s, l, hu, hn, hs, hl, hreq⟩ := randomRequired_spec o rng
  obtain ⟨extra, hchars, -, -⟩ := randomChars_spec length o rng
  simp only [generateRandomPassword_mem, hchars, hreq]
  refine ⟨⟨l, by simp, hl⟩, fun h => ⟨u, by simp [h], hu⟩, fun h => ⟨n, by simp [h], hn⟩,
    fun h => ⟨s, by simp [h], hs⟩⟩

theorem generateRandomPassword_covers_witness :
    (∃ c ∈ (generateRandomPassword 1 allOptions sampleRng).1, c ∈ CHAR_SETS.lowercase) ∧
    (∃ c ∈ (generateRandomPassword 1 allOptions sampleRng).1, c ∈ CHAR_SETS.uppercase) ∧
    (∃ c ∈ (generateRandomPassword 1 allOptions sampleRng).1, c ∈ CHAR_SETS.numbers) ∧
    (∃ c ∈ (generateRandomPassword 1 allOptions sampleRng).1, c ∈ CHAR_SETS.symbols) :=
  ⟨(generateRandomPassword_covers 1 allOptions sampleRng).1,
    (generateRandomPassword_covers 1 allOptions sampleRng).2.1 rfl,
    (generateRandomPassword_covers 1 allOptions sampleRng).2.2.1 rfl,
    (generateRandomPassword_covers 1 allOptions sampleRng).2.2.2 rfl⟩

/-- C2: when `length` is at least the number of guaranteed characters (one
for lowercase and one per enabled class), `generateRandomPassword` returns a
string of exactly `length` characters, whatever the random source yields. -/
theorem generateRandomPassword_length (length : Int) (o : Options) (rng : RandomSource)
    (h : (requiredCount o : Int) ≤ length) :
    ((generateRandomPassword length o rng).1.length : Int) = length := by
  rw [randomPassword_length_formula]
  omega

theorem generateRandomPassword_length_witness :
    (requiredCount allOptions : Int) ≤ 16 ∧
      ((generateRandomPassword 16 allOptions sampleRng).1.length : Int) = 16 :=
  ⟨by decide, generateRandomPassword_length 16 allOptions sampleRng (by decide)⟩

/-- C6: with all three classes enabled and `length = 1`, which is below the
four guaranteed characters, `generateRandomPassword` neither fails nor
truncates: for every outcome of the random source it returns four characters,
more than the requested length. -/
theorem generateRandomPassword_short_is_longer (rng : RandomSource) :
    (generateRandomPassword 1 allOptions rng).1.length = 4 := by
  rw [randomPassword_length_formula]
  rfl

/-- C3: for `length ≥ 1`, `generateHintPassword` returns exactly `length`
characters that agree with the cleaned hint on the first
`min (len cleanHint) length` characters; a cleaned hint shorter than `length`
is a prefix of the result, and a cleaned hint of at least `length` characters
is cut to its first `length` characters, for every random source and without
drawing from it. -/
theorem generateHintPassword_spec (hint : JSString) (length : Int) (o : Options)
    (rng : RandomSource) (h : 1 ≤ length) :
    ((generateHintPassword hint length o rng).1.length : Int) = length ∧
    (generateHintPassword hint length o rng).1.take
        (min (stripWhitespace hint).length length.toNat) =
      (stripWhitespace hint).take (min (stripWhitespace hint).length length.toNat) ∧
    (((stripWhitespace hint).length : Int) < length →
      stripWhitespace hint <+: (generateHintPassword hint length o rng).1) ∧
    (length ≤ ((stripWhitespace hint).length : Int) →
      ∀ rng2, generateHintPassword hint length o rng2 =
        ((stripWhitespace hint).take length.toNat, rng2)) := by
  have hge : ∀ rng2, length ≤ ((stripWhitespace hint).length : Int) →
      generateHintPassword hint length o rng2 =
        ((stripWhitespace hint).take length.toNat, rng2) := by
    intro rng2 hle
    rw [generateHintPassword_of_ge hint length o rng2 hle, sliceTo_of_nonneg _ _ (by omega)]
  by_cases hlt : ((stripWhitespace hint).length : Int) < length
  · have hs := hintSuffix_length (length - (stripWhitespace hint).length) o rng (by omega)
    have hmin : min (stripWhitespace hint).length length.toNat = (stripWhitespace hint).length := by
      omega
    rw [generateHintPassword_of_lt hint length o rng hlt, hmin]
    refine ⟨?_, ?_, fun _ => List.prefix_append _ _, fun hle => absurd hlt (by omega)⟩
    · rw [List.length_append]
      push_cast
      omega
    · rw [List.take_left, List.take_length]
  · have hle : length ≤ ((stripWhitespace hint).length : Int) := by omega
    have hmin : min (stripWhitespace hint).length length.toNat = length.toNat := by omega
    rw [hge rng hle, hmin]
    refine ⟨?_, ?_, fun h2 => absurd h2 hlt, fun _ rng2 => hge rng2 hle⟩
    · simp only [List.length_take]
      omega
    · simp

theorem generateHintPassword_spec_witness :
    ((1 : Int) ≤ 10 ∧ ((generateHintPassword (lit "my dog") 10 allOptions sampleRng).1.length : Int) = 10 ∧
      stripWhitespace (lit "my dog") <+: (generateHintPassword (lit "my dog") 10 allOptions sampleRng).1) ∧
    ((1 : Int) ≤ 3 ∧ ∀ rng2, generateHintPassword (lit "my dog") 3 allOptions rng2 =
        ((stripWhitespace (lit "my dog")).take 3, rng2)) :=
  ⟨⟨by decide, (generateHintPassword_spec (lit "my dog") 10 allOptions sampleRng (by decide)).1,
    (generateHintPassword_spec (lit "my dog") 10 allOptions sampleRng (by decide)).2.2.1
      (by decide)⟩,
   ⟨by decide, (generateHintPassword_spec (lit "my dog") 3 allOptions sampleRng (by decide)).2.2.2
      (by decide)⟩⟩

/-- C7: when `r = length - len cleanHint > 0`, the last `r` characters of the
result of `generateHintPassword` contain an uppercase letter if uppercase is
enabled, a digit if numbers is enabled and `r > 1`, a symbol if symbols is
enabled and `r > 2`, and the `required` list has at most `r` entries. -/
theorem generateHintPassword_suffix_covers (hint : JSString) (length : Int) (o : Options)
    (rng : RandomSource) (h : ((stripWhitespace hint).length : Int) < length) :
    (o.uppercase = true →
      ∃ c ∈ lastChars (length - ((stripWhitespace hint).length : Int)).toNat
        (generateHintPassword hint length o rng).1, c ∈ CHAR_SETS.uppercase) ∧
    (o.numbers = true → 1 < length - ((stripWhitespace hint).length : Int) →
      ∃ c ∈ lastChars (length - ((stripWhitespace hint).length : Int)).toNat
        (generateHintPassword hint length o rng).1, c ∈ CHAR_SETS.numbers) ∧
    (o.symbols = true → 2 < length - ((stripWhitespace hint).length : Int) →
      ∃ c ∈ lastChars (length - ((stripWhitespace hint).length : Int)).toNat
        (generateHintPassword hint length o rng).1, c ∈ CHAR_SETS.symbols) ∧
    ((hintRequired (length - ((stripWhitespace hint).length : Int)) o rng).1.length : Int) ≤
      length - ((stripWhitespace hint).length : Int) := by
  have hr : 0 < length - ((stripWhitespace hint).length : Int) := by omega
  have hs := hintSuffix_length (length - (stripWhitespace hint).length) o rng hr
  have hlast : lastChars (length - ((stripWhitespace hint).length : Int)).toNat
      (generateHintPassword hint length o rng).1 =
      hintSuffix (length - (stripWhitespace hint).length) o rng := by
    rw [generateHintPassword_of_lt hint length o rng h]
    have : (length - ((stripWhitespace hint).length : Int)).toNat =
        (hintSuffix (length - (stripWhitespace hint).length) o rng).length := by omega
    rw [this, lastChars_append]
  obtain ⟨u, n, s, hu, hn, hsy, hreq⟩ :=
    hintRequired_spec (length - (stripWhitespace hint).length) o rng
  obtain ⟨extra, hchars, -, -⟩ := hintRandomChars_spec (length - (stripWhitespace hint).length) o rng
  rw [hlast]
  simp only [hintSuffix_mem, hchars, hreq]
  refine ⟨fun h1 => ⟨u, by simp [h1, hr], hu⟩, fun h1 h2 => ⟨n, by simp [h1, h2], hn⟩,
    fun h1 h2 => ⟨s, by simp [h1, h2], hsy⟩, ?_⟩
  rw [← hreq]
  exact hintRequired_length_le _ o rng hr

theorem generateHintPassword_suffix_covers_witness :
    ((stripWhitespace (lit "my dog")).length : Int) < 10 ∧
    (∃ c ∈ lastChars 5 (generateHintPassword (lit "my dog") 10 allOptions sampleRng).1,
      c ∈ CHAR_SETS.uppercase) ∧
    (∃ c ∈ lastChars 5 (generateHintPassword (lit "my dog") 10 allOptions sampleRng).1,
      c ∈ CHAR_SETS.numbers) ∧
    (∃ c ∈ lastChars 5 (generateHintPassword (lit "my dog") 10 allOptions sampleRng).1,
      c ∈ CHAR_SETS.symbols) :=
  ⟨by decide,
    (generateHintPassword_suffix_covers (lit "my dog") 10 allOptions sampleRng (by decide)).1 rfl,
    (generateHintPassword_suffix_covers (lit "my dog") 10 allOptions sampleRng (by decide)).2.1 rfl
      (by decide),
    (generateHintPassword_suffix_covers (lit "my dog") 10 allOptions sampleRng (by decide)).2.2.1 rfl
      (by decide)⟩

theorem uppercase_disjoint :
    ∀ c ∈ CHAR_SETS.uppercase, c ∉ CHAR_SETS.lowercase ∧ c ∉ CHAR_SETS.numbers ∧
      c ∉ CHAR_SETS.symbols := by decide

theorem numbers_disjoint :
    ∀ c ∈ CHAR_SETS.numbers, c ∉ CHAR_SETS.lowercase ∧ c ∉ CHAR_SETS.uppercase ∧
      c ∉ CHAR_SETS.symbols := by decide

theorem symbols_disjoint :
    ∀ c ∈ CHAR_SETS.symbols, c ∉ CHAR_SETS.lowercase ∧ c ∉ CHAR_SETS.uppercase ∧
      c ∉ CHAR_SETS.numbers := by decide

theorem uppercase_not_in_charset (o : Options) (h : o.uppercase = false) (c : Nat)
    (hc : c ∈ CHAR_SETS.uppercase) : c ∉ buildCharset o := by
  have hd := uppercase_disjoint c hc
  rw [charset_mem_iff]
  simp [h, hd.1, hd.2.1, hd.2.2]

theorem numbers_not_in_charset (o : Options) (h : o.numbers = false) (c : Nat)
    (hc : c ∈ CHAR_SETS.numbers) : c ∉ buildCharset o := by
  have hd := numbers_disjoint c hc
  rw [charset_mem_iff]
  simp [h, hd.1, hd.2.1, hd.2.2]

theorem symbols_not_in_charset (o : Options) (h : o.symbols = false) (c : Nat)
    (hc : c ∈ CHAR_SETS.symbols) : c ∉ buildCharset o := by
  have hd := symbols_disjoint c hc
  rw [charset_mem_iff]
  simp [h, hd.1, hd.2.1, hd.2.2]

theorem generateRandomPassword_subset (length : Int) (o : Options) (rng : RandomSource) :
    (generateRandomPassword length o rng).1 ⊆ buildCharset o :=
  join_subset_of_allIn ((randomChars_allIn length o rng).perm (shuffleArray_perm _ _))

theorem sliceTo_length_le (s : JSString) (e : Int) : (sliceTo s e).length ≤ s.length := by
  unfold sliceTo
  simp only [List.length_take]
  omega

theorem generateHintPassword_appended_subset (hint : JSString) (length : Int) (o : Options)
    (rng : RandomSource) :
    (generateHintPassword hint length o rng).1.drop (stripWhitespace hint).length ⊆
      buildCharset o := by
  by_cases hlt : ((stripWhitespace hint).length : Int) < length
  · rw [generateHintPassword_of_lt hint length o rng hlt, List.drop_left]
    exact hintSuffix_subset _ o rng
  · rw [generateHintPassword_of_ge hint length o rng (by omega)]
    simp only
    rw [List.drop_eq_nil_of_le (sliceTo_length_le _ _)]
    exact List.nil_subset _

/-- C8: every character of the result of `generateRandomPassword`, and every
character that `generateHintPassword` appends after the cleaned hint, is in
the combined pool, which is lowercase plus the alphabets of the enabled
classes only; no character of a disabled class is generated; and every index
drawn is within the alphabet it indexes, so no picked element is `undefined`. -/
theorem generated_chars_in_pool (hint : JSString) (length : Int) (o : Options)
    (rng : RandomSource) :
    (generateRandomPassword length o rng).1 ⊆ buildCharset o ∧
    (generateHintPassword hint length o rng).1.drop (stripWhitespace hint).length ⊆
      buildCharset o ∧
    (∀ c, c ∈ buildCharset o ↔ c ∈ CHAR_SETS.lowercase ∨
      (o.uppercase = true ∧ c ∈ CHAR_SETS.uppercase) ∨
      (o.numbers = true ∧ c ∈ CHAR_SETS.numbers) ∨
      (o.symbols = true ∧ c ∈ CHAR_SETS.symbols)) ∧
    (o.uppercase = false → ∀ c ∈ CHAR_SETS.uppercase,
      c ∉ (generateRandomPassword length o rng).1 ∧
      c ∉ (generateHintPassword hint length o rng).1.drop (stripWhitespace hint).length) ∧
    (o.numbers = false → ∀ c ∈ CHAR_SETS.numbers,
      c ∉ (generateRandomPassword length o rng).1 ∧
      c ∉ (generateHintPassword hint length o rng).1.drop (stripWhitespace hint).length) ∧
    (o.symbols = false → ∀ c ∈ CHAR_SETS.symbols,
      c ∉ (generateRandomPassword length o rng).1 ∧
      c ∉ (generateHintPassword hint length o rng).1.drop (stripWhitespace hint).length) ∧
    (∀ max, 0 < max → (getSecureRandom max rng).1 < max) ∧
    AllIn (buildCharset o) (randomChars length o rng).1 ∧
    AllIn (buildCharset o)
      (hintRandomChars (length - ((stripWhitespace hint).length : Int)) o rng).1 := by
  have h1 := generateRandomPassword_subset length o rng
  have h2 := generateHintPassword_appended_subset hint length o rng
  refine ⟨h1, h2, charset_mem_iff o, ?_, ?_, ?_, fun max hm => getSecureRandom_lt max rng hm,
    randomChars_allIn length o rng, hintRandomChars_allIn _ o rng⟩
  · intro ho c hc
    exact ⟨fun hm => uppercase_not_in_charset o ho c hc (h1 hm),
      fun hm => uppercase_not_in_charset o ho c hc (h2 hm)⟩
  · intro ho c hc
    exact ⟨fun hm => numbers_not_in_charset o ho c hc (h1 hm),
      fun hm => numbers_not_in_charset o ho c hc (h2 hm)⟩
  · intro ho c hc
    exact ⟨fun hm => symbols_not_in_charset o ho c hc (h1 hm),
      fun hm => symbols_not_in_charset o ho c hc (h2 hm)⟩

theorem generated_chars_in_pool_witness :
    (65 ∉ (generateRandomPassword 8 noOptions sampleRng).1 ∧
      65 ∉ (generateHintPassword (lit "my dog") 8 noOptions sampleRng).1.drop
        (stripWhitespace (lit "my dog")).length) ∧
    (55 ∉ (generateRandomPassword 8 noOptions sampleRng).1 ∧
      55 ∉ (generateHintPassword (lit "my dog") 8 noOptions sampleRng).1.drop
        (stripWhitespace (lit "my dog")).length) ∧
    (63 ∉ (generateRandomPassword 8 noOptions sampleRng).1 ∧
      63 ∉ (generateHintPassword (lit "my dog") 8 noOptions sampleRng).1.drop
        (stripWhitespace (lit "my dog")).length) ∧
    (getSecureRandom 26 sampleRng).1 < 26 :=
  ⟨(generated_chars_in_pool (lit "my dog") 8 noOptions sampleRng).2.2.2.1 rfl 65 (by decide),
    (generated_chars_in_pool (lit "my dog") 8 noOptions sampleRng).2.2.2.2.1 rfl 55 (by decide),
    (generated_chars_in_pool (lit "my dog") 8 noOptions sampleRng).2.2.2.2.2.1 rfl 63 (by decide),
    (generated_chars_in_pool (lit "my dog") 8 noOptions sampleRng).2.2.2.2.2.2.1 26 (by decide)⟩

/-! ## The strength scorer -/

theorem calculateStrength_score (p : JSString) :
    (calculateStrength p).score =
      JSNumber.max (JSNumber.num 0) (JSNumber.min (JSNumber.num 100) (rawScore p)) := by
  unfold calculateStrength
  simp only
  split_ifs <;> rfl

theorem calculateStrength_label (p : JSString) (t : Int)
    (h : (calculateStrength p).score = JSNumber.num t) :
    (calculateStrength p).label = referenceLabel t := by
  rw [calculateStrength_score] at h
  unfold calculateStrength referenceLabel
  simp only [h, JSNumber.lt, decide_eq_true_eq]
  split_ifs <;> rfl

theorem rawScore_eq (p : JSString) (h : p ≠ []) :
    rawScore p = JSNumber.num (min ((p.length : Int) * 2) 30 + varietyScore p +
      ((20 * setSize p / p.length : Nat) : Int) - min ((consecutiveCount p : Int) * 2) 10) := by
  have hn : p.length ≠ 0 := fun h0 => h (List.length_eq_zero.1 h0)
  unfold rawScore uniqueRatioScore varietyScore
  simp only [if_neg hn]
  cases hasLower p <;> cases hasUpper p <;> cases hasDigit p <;> cases hasOther p <;>
    simp [JSNumber.add, JSNumber.sub] <;> omega

theorem varietyScore_le (p : JSString) : varietyScore p ≤ 40 := by
  unfold varietyScore
  split_ifs <;> omega

theorem varietyScore_ge (p : JSString) (h : p ≠ []) : 10 ≤ varietyScore p := by
  obtain ⟨c, cs, rfl⟩ := List.exists_cons_of_ne_nil h
  unfold varietyScore
  by_cases ho : hasOther (c :: cs) = true
  · rw [if_pos ho]
    split_ifs <;> omega
  · have hc : ((97 ≤ c ∧ c ≤ 122) ∨ (65 ≤ c ∧ c ≤ 90)) ∨ (48 ≤ c ∧ c ≤ 57) := by
      have ho1 : (!((decide (97 ≤ c) && decide (c ≤ 122)) || (decide (65 ≤ c) && decide (c ≤ 90)) ||
          (decide (48 ≤ c) && decide (c ≤ 57)))) = false := by
        cases hx : (!((decide (97 ≤ c) && decide (c ≤ 122)) ||
          (decide (65 ≤ c) && decide (c ≤ 90)) || (decide (48 ≤ c) && decide (c ≤ 57))))
        · rfl
        · exact absurd (by simp only [hasOther, List.any_cons, hx, Bool.true_or]) ho
      simp only [Bool.not_eq_false', Bool.or_eq_true, Bool.and_eq_true, decide_eq_true_eq] at ho1
      exact ho1
    rcases hc with (hc | hc) | hc
    · have : hasLower (c :: cs) = true := by simp [hasLower, hc.1, hc.2]
      rw [if_pos this]
      split_ifs <;> omega
    · have : hasUpper (c :: cs) = true := by simp [hasUpper, hc.1, hc.2]
      rw [if_pos this]
      split_ifs <;> omega
    · have : hasDigit (c :: cs) = true := by simp [hasDigit, hc.1, hc.2]
      rw [if_pos this]
      split_ifs <;> omega

theorem stringIterator_length_le (p : JSString) : (stringIterator p).length ≤ p.length := by
  induction p using stringIterator.induct with
  | case1 => simp [stringIterator]
  | case2 a => simp [stringIterator]
  | case3 a b rest h ih =>
    rw [stringIterator, if_pos h]
    simp only [List.length_cons]
    omega
  | case4 a b rest h ih =>
    rw [stringIterator, if_neg h]
    simp only [List.length_cons] at ih ⊢
    omega

theorem setSize_le (p : JSString) : setSize p ≤ p.length :=
  le_trans (List.dedup_sublist _).length_le (stringIterator_length_le p)

theorem consecutiveCount_lt (p : JSString) (h : p ≠ []) : consecutiveCount p < p.length := by
  induction p using consecutiveCount.induct with
  | case1 => exact absurd rfl h
  | case2 a => simp [consecutiveCount]
  | case3 a b rest ih =>
    have := ih (by simp)
    rw [consecutiveCount]
    simp only [List.length_cons] at this ⊢
    split_ifs <;> omega

theorem consecutiveCount_eq_referencePairs (p : JSString) :
    consecutiveCount p = referencePairs p := by
  induction p using consecutiveCount.induct with
  | case1 => rfl
  | case2 a => rfl
  | case3 a b rest ih =>
    rw [consecutiveCount, ih]
    unfold referencePairs
    simp only [List.tail_cons, List.zip_cons_cons, List.filter_cons]
    have hiff : Int.natAbs ((b : Int) - (a : Int)) = 1 ↔ (a + 1 = b ∨ b + 1 = a) := by omega
    by_cases hab : a + 1 = b ∨ b + 1 = a
    · rw [if_pos (hiff.2 hab), if_pos (by simpa using hab)]
      simp only [List.length_cons]
      omega
    · rw [if_neg (fun h => hab (hiff.1 h)), if_neg (by simpa using hab)]
      omega

theorem stringIterator_of_no_high (p : JSString) (h : ∀ c ∈ p, isHighSurrogate c = false) :
    stringIterator p = p.map (fun c => [c]) := by
  induction p using stringIterator.induct with
  | case1 => rfl
  | case2 a => rfl
  | case3 a b rest hs ih =>
    have := h a (List.mem_cons_self _ _)
    simp [this] at hs
  | case4 a b rest hs ih =>
    rw [stringIterator, if_neg hs, ih (fun c hc => h c (List.mem_cons_of_mem _ hc))]
    rfl

theorem setSize_of_no_high (p : JSString) (h : ∀ c ∈ p, isHighSurrogate c = false) :
    setSize p = p.dedup.length := by
  unfold setSize
  rw [stringIterator_of_no_high p h]
  have hinj : Function.Injective (fun c : Nat => [c]) := fun a b hab => by simpa using hab
  rw [List.dedup_map_of_injective hinj, List.length_map]

/-- On a non-empty password without a high surrogate, so that every code point
is one code unit, `calculateStrength` equals the reference definition. -/
theorem calculateStrength_eq_reference (p : JSString) (hne : p ≠ [])
    (h : ∀ c ∈ p, isHighSurrogate c = false) :
    (calculateStrength p).score = JSNumber.num (referenceScore p) ∧
      (calculateStrength p).label = referenceLabel (referenceScore p) := by
  have hs : (calculateStrength p).score = JSNumber.num (referenceScore p) := by
    rw [calculateStrength_score, rawScore_eq p hne, setSize_of_no_high p h,
      consecutiveCount_eq_referencePairs]
    simp only [JSNumber.min, JSNumber.max, referenceScore, referenceTotal, varietyScore,
      hasLower, hasUpper, hasDigit, hasOther]
    congr 3
    ring_nf
  exact ⟨hs, calculateStrength_label p _ hs⟩

/-- C4: on the empty string `calculateStrength` computes `0 / 0`; the score
is `NaN`, which the clamp leaves unchanged and every comparison rejects, so
the label is `Strong`, not score 0 and `Weak`. -/
theorem calculateStrength_empty :
    calculateStrength [] = ⟨JSNumber.nan, "Strong", "#22c55e"⟩ := by
  decide

/-- C5: on the one-character password U+1F600, two UTF-16 code units that
`new Set` counts as one element, `calculateStrength` returns score 24 and
label `Weak`, while the reference definition gives 34 and `Fair`; the
ten-letter password `aaaaaaaaaa` gets 32 and `Fair` from both. -/
theorem calculateStrength_surrogate_pair :
    calculateStrength [55357, 56832] = ⟨JSNumber.num 24, "Weak", "#ef4444"⟩ ∧
    referenceScore [55357, 56832] = 34 ∧ referenceLabel 34 = "Fair" ∧
    calculateStrength (lit "aaaaaaaaaa") = ⟨JSNumber.num 32, "Fair", "#f59e0b"⟩ ∧
    referenceScore (lit "aaaaaaaaaa") = 32 := by
  decide

/-- C10: for a non-empty password the total before the clamp is an integer
between 12 and 90, so the clamp to `[0, 100]` returns it unchanged and the
score never exceeds 90. -/
theorem rawScore_bounds (p : JSString) (h : p ≠ []) :
    ∃ t : Int, rawScore p = JSNumber.num t ∧ 12 ≤ t ∧ t ≤ 90 ∧
      (calculateStrength p).score = JSNumber.num t := by
  have hv1 := varietyScore_le p
  have hv2 := varietyScore_ge p h
  have hc := consecutiveCount_lt p h
  have hd : 20 * setSize p / p.length ≤ 20 :=
    Nat.div_le_of_le_mul (by have := setSize_le p; nlinarith)
  have hl : 0 < p.length := List.length_pos.2 h
  have hr := rawScore_eq p h
  generalize 20 * setSize p / p.length = U at hd hr
  generalize varietyScore p = V at hv1 hv2 hr
  generalize consecutiveCount p = c at hc hr
  generalize p.length = n at hc hl hr
  have hclamp : max 0 (min 100 (min ((n : Int) * 2) 30 + V + (U : Int) - min ((c : Int) * 2) 10)) =
      min ((n : Int) * 2) 30 + V + (U : Int) - min ((c : Int) * 2) 10 := by omega
  refine ⟨_, hr, by omega, by omega, ?_⟩
  rw [calculateStrength_score, hr]
  simp only [JSNumber.min, JSNumber.max]
  rw [hclamp]

theorem rawScore_bounds_witness :
    lit "ababab" ≠ [] ∧ ∃ t : Int, rawScore (lit "ababab") = JSNumber.num t ∧ 12 ≤ t ∧ t ≤ 90 ∧
      (calculateStrength (lit "ababab")).score = JSNumber.num t :=
  ⟨by decide, rawScore_bounds (lit "ababab") (by decide)⟩

end AutoPass
